import Mathlib

/-! Compile-time enum name mapping: a shallow embedding.

Embeds `inc/const_enum.hpp` and `inc/enum.hpp`.

* `std::string_view` is a `List Char`; `size_t` is a `Nat` reduced modulo `2 ^ 64`.
* A `consteval` function whose evaluation trips a `static_assert`, or performs an
  access with undefined behaviour inside a constant expression, does not compile:
  it returns `Except.error`.
* `__FUNCSIG__` is text produced by the compiler for one template instantiation; the
  functions that read it take that text as their argument, and `Compiler` describes how
  it is produced from an enumeration and a probed integer.
-/

set_option maxRecDepth 20000

namespace ConstEnum

/-- Text of a `std::string_view`. -/
abbrev Str := List Char

/-- Ways in which an instantiation fails to compile. -/
inductive CompileError where
  /-- A `static_assert` condition evaluated to false. -/
  | static_assert
  /-- An access outside the viewed characters during constant evaluation. -/
  | out_of_range
  /-- More initialisers than elements in an aggregate initialisation. -/
  | excess_initializers
  deriving DecidableEq, Repr

deriving instance DecidableEq for Except

/-- Number of values of `size_t`. -/
def SIZE_MOD : Nat := 2 ^ 64

/-- The constant `std::string_view::npos`, i.e. `size_t(-1)`. -/
def npos : Nat := SIZE_MOD - 1

/-- The call `sv.find(ch, pos)`: index of the first occurrence of `ch` at or after `pos`,
`npos` when there is none (in particular when `pos` is not below `sv.size()`). -/
def find (sv : Str) (ch : Char) (pos : Nat) : Nat :=
  let rest := sv.drop pos
  let k := rest.indexOf ch
  if k < rest.length then (pos + k) % SIZE_MOD else npos

/-- The call `sv.rfind(ch)`: index of the last occurrence of `ch`, `npos` when there is none. -/
def rfind (sv : Str) (ch : Char) : Nat :=
  let k := sv.reverse.indexOf ch
  if k < sv.length then (sv.length - 1 - k) % SIZE_MOD else npos

/-- The expression `funcsig.find(',', funcsig.rfind('<')) + 1` in `size_t` arithmetic. -/
def start_of (funcsig : Str) : Nat :=
  (find funcsig ',' (rfind funcsig '<') + 1) % SIZE_MOD

/-- The expression `funcsig.rfind('>')`. -/
def end_of (funcsig : Str) : Nat :=
  rfind funcsig '>'

/-- The constructor call `std::string_view(&sv[start], count)`: the `count` characters from
`start`. The source does not check `count`: a count that runs past the end of `sv` (a
wrapped `end - start`) yields a view whose characters are not characters of the signature.
Such a view has no value as text, and is reported here as `out_of_range`. -/
def substr_view (sv : Str) (start count : Nat) : Except CompileError Str :=
  if start + count ≤ sv.length then .ok ((sv.drop start).take count)
  else .error .out_of_range

namespace detail

/-- The function `detail::is_enum_member_valid<E, EnumMember>()` of `const_enum.hpp`, as a
function of the text `__FUNCSIG__` expands to in that instantiation. -/
def is_enum_member_valid (funcsig : Str) : Except CompileError Bool :=
  let start := start_of funcsig
  if start = npos then .error .static_assert
  else
    match funcsig[start]? with
    | none => .error .out_of_range
    | some c => .ok (c != '(')

/-- The function `detail::get_enum_member_name<E, EnumMember>()` of `const_enum.hpp`, as a
function of the text `__FUNCSIG__` expands to in that instantiation. -/
def get_enum_member_name (funcsig : Str) : Except CompileError Str :=
  let start := start_of funcsig
  let end_ := end_of funcsig
  if ¬ (start ≠ npos ∧ end_ ≠ npos) then .error .static_assert
  else
    match funcsig[start]? with
    | none => .error .out_of_range
    | some c =>
      if c = '(' then .ok []
      else substr_view funcsig start ((end_ + SIZE_MOD - start) % SIZE_MOD)

/-- The function `detail::add_offset<Offset>(std::index_sequence<Is...>)`: the sequence
`(Offset + Is)...`, each sum taken in `size_t`. -/
def add_offset (Offset : Nat) (Is : List Nat) : List Nat :=
  Is.map (fun i => (Offset + i) % SIZE_MOD)

/-- The function `detail::make_offset_index_sequence<Offset, N>()`. -/
def make_offset_index_sequence (Offset N : Nat) : List Nat :=
  add_offset Offset (List.range N)

end detail

/-! ## The enumeration and the compiler -/

/-- An enumeration type as the compiler knows it: the spelling of the type inside a
signature, and the declared `(name, value)` members in declaration order. -/
structure EnumDecl where
  type_name : Str
  members : List (Str × Int)

/-- Name of the first declared member whose value is `v`. -/
def EnumDecl.member_name (E : EnumDecl) (v : Int) : Option Str :=
  (E.members.find? (fun m => m.2 == v)).map (fun m => m.1)

/-- Whether the enumeration declares a member equal to `v`. -/
def EnumDecl.declares (E : EnumDecl) (v : Int) : Bool :=
  E.members.any (fun m => m.2 == v)

/-- A source identifier: a letter or underscore followed by letters, digits, underscores. -/
def is_identifier : Str → Bool
  | [] => false
  | c :: cs => (c.isAlpha || c == '_') && cs.all (fun d => d.isAlphanum || d == '_')

/-- The function templates whose bodies read `__FUNCSIG__`: the two of `const_enum.hpp`
(namespace `detail`) and the two of `enum.hpp`. -/
inductive Template where
  | detail_is_enum_member_valid
  | detail_get_enum_member_name
  | flat_is_enum_member_valid
  | flat_get_enum_member_name
  deriving DecidableEq, Repr

/-- How a compiler spells `__FUNCSIG__` for an instantiation `f<E, (E)v>`: the text before
the template argument list (return type, calling convention, qualified name), the text
after it, and the text that follows the opening parenthesis of a value that names no
member. -/
structure Compiler where
  pre : Template → Str
  post : Str
  cast : EnumDecl → Int → Str

/-- Spelling of the second template argument `(E)v`: the member's bare identifier when `v` is
a declared member, a cast expression starting with `(` when it is not. The integer `v` is
the value of the enumeration constant: an integer that is not a value of the underlying type
of `E` is converted by the cast first, which is not part of this rendering. -/
def Compiler.template_arg (C : Compiler) (E : EnumDecl) (v : Int) : Str :=
  match E.member_name v with
  | some name => name
  | none => '(' :: C.cast E v

/-- The text of `__FUNCSIG__` inside `f<E, (E)v>`:
`pre ++ "<" ++ T ++ "," ++ A ++ ">" ++ post`. -/
def Compiler.funcsig (C : Compiler) (f : Template) (E : EnumDecl) (v : Int) : Str :=
  C.pre f ++ '<' :: (E.type_name ++ ',' :: (C.template_arg E v ++ '>' :: C.post))

/-- The signature model for the instantiation `f<E, (E)v>`: nothing after the `<` that opens
the template argument list contains another `<`, the type's spelling has no comma, member
names are identifiers, and the text fits in a `size_t`-indexed view. -/
def SigModel (C : Compiler) (f : Template) (E : EnumDecl) (v : Int) : Prop :=
  '<' ∉ E.type_name ∧ ',' ∉ E.type_name ∧
  (∀ m ∈ E.members, is_identifier m.1 = true) ∧
  '<' ∉ C.cast E v ∧ '<' ∉ C.post ∧
  (C.funcsig f E v).length < npos

instance (C : Compiler) (f : Template) (E : EnumDecl) (v : Int) : Decidable (SigModel C f E v) := by
  unfold SigModel; infer_instance

/-! ## `const_enum.hpp`: public functions -/

/-- The function `is_enum_member_valid<E, EnumMember>()` with an `int` argument. -/
def is_enum_member_valid (C : Compiler) (E : EnumDecl) (EnumMember : Int) :
    Except CompileError Bool :=
  detail.is_enum_member_valid (C.funcsig .detail_is_enum_member_valid E EnumMember)

/-- The function `get_enum_member_name<E, EnumMember>()` with an `int` argument. -/
def get_enum_member_name (C : Compiler) (E : EnumDecl) (EnumMember : Int) :
    Except CompileError Str :=
  detail.get_enum_member_name (C.funcsig .detail_get_enum_member_name E EnumMember)

/-- Pack expansion `f<Is>()...` inside a braced initialiser list: every instantiation has to
compile, and the results are collected in the order of the pack. -/
def expand {α : Type} (f : Nat → Except CompileError α) : List Nat → Except CompileError (List α)
  | [] => .ok []
  | i :: rest =>
    match f i with
    | .error e => .error e
    | .ok x =>
      match expand f rest with
      | .error e => .error e
      | .ok xs => .ok (x :: xs)

/-- The overload `get_enum_array<E>(std::index_sequence<Is...> sequence)`: an array of
`sequence.size()` views initialised with `detail::get_enum_member_name<E, (E)Is>()...`. -/
def get_enum_array (C : Compiler) (E : EnumDecl) (sequence : List Nat) :
    Except CompileError (List Str) :=
  expand (fun i => detail.get_enum_member_name
    (C.funcsig .detail_get_enum_member_name E (Int.ofNat i))) sequence

/-- The overload `get_enum_array<E, N>()`. -/
def get_enum_array_N (C : Compiler) (E : EnumDecl) (N : Nat) : Except CompileError (List Str) :=
  get_enum_array C E (List.range N)

/-- The function `get_enum_array_range<E, Start, End>()`. Past the `static_assert` the
`size_t` difference `End - Start` does not wrap. -/
def get_enum_array_range (C : Compiler) (E : EnumDecl) (Start End : Nat) :
    Except CompileError (List Str) :=
  if Start ≤ End then
    get_enum_array C E (detail.make_offset_index_sequence Start (End - Start))
  else .error .static_assert

/-! ## `enum.hpp` -/

namespace enum_hpp

/-- The function `is_enum_member_valid<E, EnumMember>()` of `enum.hpp`, as a function of the
text of `__FUNCSIG__`. -/
def is_enum_member_valid (funcsig : Str) : Except CompileError Bool :=
  let start := start_of funcsig
  if start = npos then .error .static_assert
  else
    match funcsig[start]? with
    | none => .error .out_of_range
    | some c => .ok (c != '(')

/-- The function `get_enum_member_name<E, EnumMember>()` of `enum.hpp`, as a function of the
text of `__FUNCSIG__`. -/
def get_enum_member_name (funcsig : Str) : Except CompileError Str :=
  let start := start_of funcsig
  let end_ := end_of funcsig
  if ¬ (start ≠ npos ∧ end_ ≠ npos) then .error .static_assert
  else
    match funcsig[start]? with
    | none => .error .out_of_range
    | some c =>
      if c = '(' then .ok []
      else substr_view funcsig start ((end_ + SIZE_MOD - start) % SIZE_MOD)

/-- The overload `get_enum_array<E, N>(std::index_sequence<Is...>)` of `enum.hpp`: an array of
`N` views aggregate-initialised with `get_enum_member_name<E, (E)Is>()...`. More than `N`
initialisers do not compile; elements without an initialiser are empty views. -/
def get_enum_array (C : Compiler) (E : EnumDecl) (N : Nat) (Is : List Nat) :
    Except CompileError (List Str) :=
  match expand (fun i => get_enum_member_name
      (C.funcsig .flat_get_enum_member_name E (Int.ofNat i))) Is with
  | .error e => .error e
  | .ok inits =>
    if inits.length ≤ N then .ok (inits ++ List.replicate (N - inits.length) [])
    else .error .excess_initializers

/-- The overload `get_enum_array<E, N>()` of `enum.hpp`. -/
def get_enum_array_N (C : Compiler) (E : EnumDecl) (N : Nat) : Except CompileError (List Str) :=
  get_enum_array C E N (List.range N)

/-- The function `add_offset<Offset>(std::index_sequence<Is...>)` of `enum.hpp`. -/
def add_offset (Offset : Nat) (Is : List Nat) : List Nat :=
  Is.map (fun i => (Offset + i) % SIZE_MOD)

/-- The function `make_offset_index_sequence<Offset, N>()` of `enum.hpp`. -/
def make_offset_index_sequence (Offset N : Nat) : List Nat :=
  add_offset Offset (List.range N)

end enum_hpp

/-! ## The example programs -/

/-- Hexadecimal digits of a number, most significant first, by repeated division. -/
def hex_digits : Nat → Nat → Str
  | 0, _ => []
  | fuel + 1, n =>
    if n < 16 then [Nat.digitChar n]
    else hex_digits fuel (n / 16) ++ [Nat.digitChar (n % 16)]

/-- A compiler that spells signatures the way the Microsoft compiler does, e.g.
`bool __cdecl const_enum::detail::is_enum_member_valid<enum e_example,FOO>(void)` and
`...<enum e_example,(enum e_example)0x3>(void)`. -/
def msvc : Compiler where
  pre
    | .detail_is_enum_member_valid =>
      "bool __cdecl const_enum::detail::is_enum_member_valid".toList
    | .detail_get_enum_member_name =>
      ("class std::basic_string_view<char,struct std::char_traits<char> > __cdecl " ++
        "const_enum::detail::get_enum_member_name").toList
    | .flat_is_enum_member_valid =>
      "bool __cdecl const_enum::is_enum_member_valid".toList
    | .flat_get_enum_member_name =>
      ("class std::basic_string_view<char,struct std::char_traits<char> > __cdecl " ++
        "const_enum::get_enum_member_name").toList
  post := "(void)".toList
  cast E v := E.type_name ++ ")0x".toList ++ hex_digits 16 (v % 4294967296).toNat

/-- The enumeration `e_example` of `examples/ConstexprEnumShenanigans.cpp`. -/
def e_example : EnumDecl where
  type_name := "enum e_example".toList
  members := [("FOO".toList, 0), ("BAR".toList, 1), ("FOOBAR".toList, 4),
    ("FIZZ".toList, 5), ("BUZZ".toList, 6), ("SIZEOF_ENUM".toList, 7)]

/-- An enumeration nested in a class template,
`template <class A, class B> struct Foo { enum Color { Red, Green }; };` instantiated as
`Foo<int, char>::Color`: the spelling of the type has a `<` and a comma of its own. -/
def e_tmpl : EnumDecl where
  type_name := "enum Foo<int,char>::Color".toList
  members := [("Red".toList, 0), ("Green".toList, 1)]

/-- The enumeration `e_example` of `src/ConstexprEnumShenanigans.cpp`. -/
def e_example_flat : EnumDecl where
  type_name := "enum e_example".toList
  members := [("FOO".toList, 0), ("BAR".toList, 1), ("FOOBAR".toList, 6),
    ("FIZZ".toList, 7), ("BUZZ".toList, 8), ("SIZEOF_ENUM".toList, 9)]

end ConstEnum

/-! ## Scanning lemmas -/

namespace ConstEnum

theorem npos_eq : npos = 18446744073709551615 := by decide

theorem size_mod_eq : SIZE_MOD = 18446744073709551616 := by decide

/-- The last occurrence of `c` in `p ++ c :: t` is at `p.length` when `t` has no `c`. -/
theorem rfind_append_cons (p t : Str) (c : Char) (ht : c ∉ t)
    (hlen : (p ++ c :: t).length < npos) : rfind (p ++ c :: t) c = p.length := by
  have hrev : (p ++ c :: t).reverse = t.reverse ++ c :: p.reverse := by simp
  have hidx : (p ++ c :: t).reverse.indexOf c = t.length := by
    rw [hrev, List.indexOf_append_of_not_mem (by simpa using ht), List.indexOf_cons_self]
    simp
  have hl : (p ++ c :: t).length = p.length + t.length + 1 := by simp; omega
  rw [npos_eq, hl] at hlen
  unfold rfind
  simp only [hidx, hl]
  rw [if_pos (by omega), size_mod_eq]
  omega

/-- Without any `c` the reverse search returns `npos`. -/
theorem rfind_of_not_mem (s : Str) (c : Char) (h : c ∉ s) : rfind s c = npos := by
  unfold rfind
  have : s.reverse.indexOf c = s.length := by
    rw [List.indexOf_of_not_mem (by simpa using h)]; simp
  simp [this]

/-- Searching `c` from `p.length` in `p ++ t ++ c :: u` stops after `t` when `t` has no `c`. -/
theorem find_append_cons (p t u : Str) (c : Char) (ht : c ∉ t)
    (hlen : (p ++ (t ++ c :: u)).length < npos) :
    find (p ++ (t ++ c :: u)) c p.length = p.length + t.length := by
  have hl : (p ++ (t ++ c :: u)).length = p.length + t.length + u.length + 1 := by simp; omega
  rw [npos_eq, hl] at hlen
  unfold find
  have hdrop : (p ++ (t ++ c :: u)).drop p.length = t ++ c :: u := by simp
  have hidx : (t ++ c :: u).indexOf c = t.length := by
    rw [List.indexOf_append_of_not_mem ht, List.indexOf_cons_self]; simp
  simp only [hdrop, hidx]
  rw [if_pos (by simp), size_mod_eq]
  omega

/-- On a signature `pre ++ "<" ++ T ++ "," ++ rest` the scan starts right after the comma. -/
theorem start_of_shape (pre T rest : Str) (hT : '<' ∉ T) (hTc : ',' ∉ T) (hrest : '<' ∉ rest)
    (hlen : (pre ++ '<' :: (T ++ ',' :: rest)).length < npos) :
    start_of (pre ++ '<' :: (T ++ ',' :: rest)) = pre.length + T.length + 2 := by
  have hr : rfind (pre ++ '<' :: (T ++ ',' :: rest)) '<' = pre.length := by
    apply rfind_append_cons _ _ _ _ hlen
    simp [hT, hrest]
  have hf : find (pre ++ (('<' :: T) ++ ',' :: rest)) ',' pre.length
      = pre.length + ('<' :: T).length := by
    apply find_append_cons
    · simp [hTc]
    · simpa using hlen
  have hl : (pre ++ '<' :: (T ++ ',' :: rest)).length = pre.length + T.length + rest.length + 2 := by
    simp; omega
  rw [npos_eq, hl] at hlen
  unfold start_of
  rw [hr]
  simp only [List.cons_append] at hf
  rw [hf, size_mod_eq]
  simp only [List.length_cons]
  omega

/-- What the view holds from `start` on. -/
theorem drop_start_shape (pre T rest : Str) :
    (pre ++ '<' :: (T ++ ',' :: rest)).drop (pre.length + T.length + 2) = rest := by
  have : pre ++ '<' :: (T ++ ',' :: rest) = (pre ++ '<' :: (T ++ [','])) ++ rest := by simp
  rw [this]
  have hl : pre.length + T.length + 2 = (pre ++ '<' :: (T ++ [','])).length := by simp; omega
  rw [hl, List.drop_left]

theorem getElem?_start_shape (pre T rest : Str) :
    (pre ++ '<' :: (T ++ ',' :: rest))[pre.length + T.length + 2]? = rest.head? := by
  have h := List.head?_drop (pre ++ '<' :: (T ++ ',' :: rest)) (pre.length + T.length + 2)
  rw [drop_start_shape] at h
  exact h.symm

/-- Every string containing `c` splits at its last occurrence of `c`. -/
theorem exists_last_split (l : Str) (c : Char) (h : c ∈ l) :
    ∃ r1 r2, l = r1 ++ c :: r2 ∧ c ∉ r2 := by
  obtain ⟨as, bs, hl, has⟩ := List.eq_append_cons_of_mem (List.mem_reverse.mpr h)
  refine ⟨bs.reverse, as.reverse, ?_, by simpa using has⟩
  have := congrArg List.reverse hl
  simpa using this

/-- The validity scan on a signature `pre ++ "<" ++ T ++ "," ++ c :: rest` reads `c`. -/
theorem detail_valid_shape (pre T rest : Str) (c : Char) (hT : '<' ∉ T) (hTc : ',' ∉ T)
    (hrest : '<' ∉ c :: rest)
    (hlen : (pre ++ '<' :: (T ++ ',' :: c :: rest)).length < npos) :
    detail.is_enum_member_valid (pre ++ '<' :: (T ++ ',' :: c :: rest)) = .ok (c != '(') := by
  have hs := start_of_shape pre T (c :: rest) hT hTc hrest hlen
  have hl : (pre ++ '<' :: (T ++ ',' :: c :: rest)).length
      = pre.length + T.length + rest.length + 3 := by simp; omega
  have hne : pre.length + T.length + 2 ≠ npos := by
    rw [hl] at hlen; omega
  unfold detail.is_enum_member_valid
  simp only [hs, if_neg hne, getElem?_start_shape, List.head?_cons]

/-- The name scan on a signature `pre ++ "<" ++ T ++ "," ++ r1 ++ ">" ++ r2` whose last `>` is
the one shown: empty when the text after the comma opens with `(`, otherwise `r1`. -/
theorem detail_name_shape (pre T r1 r2 : Str) (hT : '<' ∉ T) (hTc : ',' ∉ T)
    (hr1 : '<' ∉ r1) (hr2 : '<' ∉ r2) (hgt : '>' ∉ r2)
    (hlen : (pre ++ '<' :: (T ++ ',' :: (r1 ++ '>' :: r2))).length < npos) :
    detail.get_enum_member_name (pre ++ '<' :: (T ++ ',' :: (r1 ++ '>' :: r2)))
      = .ok (if (r1 ++ ['>']).head? = some '(' then [] else r1) := by
  have hrest : '<' ∉ r1 ++ '>' :: r2 := by simp [hr1, hr2]
  have hs := start_of_shape pre T (r1 ++ '>' :: r2) hT hTc hrest hlen
  have hl : (pre ++ '<' :: (T ++ ',' :: (r1 ++ '>' :: r2))).length
      = pre.length + T.length + r1.length + r2.length + 3 := by simp; omega
  have he : end_of (pre ++ '<' :: (T ++ ',' :: (r1 ++ '>' :: r2)))
      = pre.length + T.length + 2 + r1.length := by
    have hre : pre ++ '<' :: (T ++ ',' :: (r1 ++ '>' :: r2))
        = (pre ++ '<' :: (T ++ ',' :: r1)) ++ '>' :: r2 := by simp
    unfold end_of
    rw [hre, rfind_append_cons _ _ _ hgt (by rw [← hre]; exact hlen)]
    simp; omega
  rw [hl, npos_eq] at hlen
  have hne : pre.length + T.length + 2 ≠ npos := by rw [npos_eq]; omega
  have hne2 : pre.length + T.length + 2 + r1.length ≠ npos := by rw [npos_eq]; omega
  have hcount : (pre.length + T.length + 2 + r1.length + SIZE_MOD
      - (pre.length + T.length + 2)) % SIZE_MOD = r1.length := by
    rw [size_mod_eq]; omega
  unfold detail.get_enum_member_name
  simp only [hs, he, hcount, getElem?_start_shape]
  rw [if_neg (by simp [hne, hne2])]
  unfold substr_view
  rw [if_pos (by rw [hl]; omega), drop_start_shape]
  cases r1 with
  | nil => simp
  | cons a r =>
    simp only [List.cons_append, List.head?_cons, Option.some.injEq]
    by_cases ha : a = '('
    · simp [ha]
    · simp only [ha, if_false]
      congr 1
      have : (a :: (r ++ '>' :: r2)) = (a :: r) ++ '>' :: r2 := by simp
      rw [this, List.take_left' (by simp)]

/-! ## Enumerations and identifiers -/

theorem member_name_some_mem (E : EnumDecl) (v : Int) (name : Str)
    (h : E.member_name v = some name) : (name, v) ∈ E.members := by
  unfold EnumDecl.member_name at h
  cases hf : E.members.find? (fun m => m.2 == v) with
  | none => simp [hf] at h
  | some m =>
    simp [hf] at h
    have hm := List.mem_of_find?_eq_some hf
    have hv := List.find?_some hf
    simp at hv
    rw [← h, ← hv]
    exact hm

theorem declares_eq_isSome (E : EnumDecl) (v : Int) :
    E.declares v = (E.member_name v).isSome := by
  unfold EnumDecl.declares EnumDecl.member_name
  rw [Option.isSome_map']
  induction E.members with
  | nil => rfl
  | cons m ms ih =>
    simp only [List.any_cons, List.find?_cons]
    cases hmv : (m.2 == v) <;> simp [ih]

theorem declares_iff (E : EnumDecl) (v : Int) :
    E.declares v = true ↔ ∃ name, (name, v) ∈ E.members := by
  unfold EnumDecl.declares
  simp

/-- Every character of an identifier is a letter, a digit or an underscore. -/
theorem identifier_chars (s : Str) (h : is_identifier s = true) :
    ∀ d ∈ s, (d.isAlphanum || d == '_') = true := by
  cases s with
  | nil => simp
  | cons c cs =>
    simp only [is_identifier, Bool.and_eq_true, List.all_eq_true] at h
    intro d hd
    rcases List.mem_cons.mp hd with rfl | hd
    · have h1 := h.1
      simp only [Bool.or_eq_true] at h1 ⊢
      rcases h1 with h1 | h1
      · left; simp [Char.isAlphanum, h1]
      · right; exact h1
    · exact h.2 d hd

theorem identifier_not_mem (s : Str) (h : is_identifier s = true) (c : Char)
    (hc : (c.isAlphanum || c == '_') = false) : c ∉ s := by
  intro hmem
  have := identifier_chars s h c hmem
  rw [hc] at this
  exact Bool.noConfusion this

theorem identifier_cons (s : Str) (h : is_identifier s = true) :
    ∃ c cs, s = c :: cs ∧ c ≠ '(' := by
  cases s with
  | nil => simp [is_identifier] at h
  | cons c cs =>
    refine ⟨c, cs, rfl, ?_⟩
    rintro rfl
    exact identifier_not_mem _ h '(' (by decide) (List.mem_cons_self _ _)

/-- Under the signature model the second template argument has no `<`. -/
theorem template_arg_no_lt (C : Compiler) (f : Template) (E : EnumDecl) (v : Int)
    (h : SigModel C f E v) : '<' ∉ C.template_arg E v := by
  obtain ⟨_, _, hid, hcast, _, _⟩ := h
  unfold Compiler.template_arg
  cases hm : E.member_name v with
  | none => simp [hcast]
  | some name =>
    exact identifier_not_mem _ (hid _ (member_name_some_mem E v name hm)) '<' (by decide)

/-- Under the signature model `detail::is_enum_member_valid` decides membership. -/
theorem detail_valid_model (C : Compiler) (f : Template) (E : EnumDecl) (v : Int)
    (h : SigModel C f E v) :
    detail.is_enum_member_valid (C.funcsig f E v) = .ok (E.declares v) := by
  have hA := template_arg_no_lt C f E v h
  obtain ⟨hT, hTc, hid, hcast, hpost, hlen⟩ := h
  rw [declares_eq_isSome]
  unfold Compiler.funcsig Compiler.template_arg at *
  cases hm : E.member_name v with
  | none =>
    simp only [hm, List.cons_append] at hlen hA ⊢
    rw [detail_valid_shape _ _ _ _ hT hTc (by simp [hcast, hpost]) hlen]
    rfl
  | some name =>
    simp only [hm] at hlen hA ⊢
    obtain ⟨c, cs, rfl, hc⟩ := identifier_cons name (hid _ (member_name_some_mem E v name hm))
    simp only [List.cons_append] at hlen ⊢
    rw [detail_valid_shape _ _ _ _ hT hTc (by simpa [hpost] using hA) hlen]
    simp [hc]

/-- Under the signature model, with no `>` after the template argument list,
`detail::get_enum_member_name` returns the identifier of a member and nothing otherwise. -/
theorem detail_name_model (C : Compiler) (f : Template) (E : EnumDecl) (v : Int)
    (h : SigModel C f E v) (hgt : '>' ∉ C.post) :
    detail.get_enum_member_name (C.funcsig f E v) = .ok ((E.member_name v).getD []) := by
  have hA := template_arg_no_lt C f E v h
  obtain ⟨hT, hTc, hid, hcast, hpost, hlen⟩ := h
  unfold Compiler.funcsig at *
  rw [detail_name_shape _ _ _ _ hT hTc hA hpost hgt hlen]
  unfold Compiler.template_arg
  cases hm : E.member_name v with
  | none => simp
  | some name =>
    obtain ⟨c, cs, rfl, hc⟩ := identifier_cons name (hid _ (member_name_some_mem E v name hm))
    simp [hc]

/-- Under the signature model alone, `detail::get_enum_member_name` compiles and its result
is empty exactly when the value names no member. -/
theorem detail_name_model_empty_iff (C : Compiler) (f : Template) (E : EnumDecl) (v : Int)
    (h : SigModel C f E v) :
    ∃ s, detail.get_enum_member_name (C.funcsig f E v) = .ok s ∧
      (s = [] ↔ E.declares v = false) := by
  have hA := template_arg_no_lt C f E v h
  obtain ⟨hT, hTc, hid, hcast, hpost, hlen⟩ := h
  obtain ⟨r1, r2, hsplit, hr2⟩ :=
    exists_last_split (C.template_arg E v ++ '>' :: C.post) '>' (by simp)
  have hrest : '<' ∉ r1 ++ '>' :: r2 := by rw [← hsplit]; simp [hA, hpost]
  have hr1lt : '<' ∉ r1 := fun hm => hrest (List.mem_append_left _ hm)
  have hr2lt : '<' ∉ r2 := fun hm =>
    hrest (List.mem_append_right _ (List.mem_cons_of_mem _ hm))
  unfold Compiler.funcsig at *
  rw [hsplit] at hlen ⊢
  rw [detail_name_shape _ _ _ _ hT hTc hr1lt hr2lt hr2 hlen, declares_eq_isSome]
  refine ⟨_, rfl, ?_⟩
  unfold Compiler.template_arg at hsplit
  cases hm : E.member_name v with
  | none =>
    simp only [hm, List.cons_append] at hsplit
    cases r1 with
    | nil =>
      simp only [List.nil_append, List.cons.injEq] at hsplit
      exact absurd hsplit.1 (by decide)
    | cons a r =>
      simp only [List.cons_append, List.cons.injEq] at hsplit
      simp [← hsplit.1]
  | some name =>
    obtain ⟨c, cs, rfl, hc⟩ := identifier_cons name (hid _ (member_name_some_mem E v _ hm))
    have hgt : c ≠ '>' := by
      rintro rfl
      exact identifier_not_mem _ (hid _ (member_name_some_mem E v _ hm)) '>' (by decide)
        (List.mem_cons_self _ _)
    simp only [hm, List.cons_append] at hsplit
    cases r1 with
    | nil =>
      simp only [List.nil_append, List.cons.injEq] at hsplit
      exact absurd hsplit.1 hgt
    | cons a r =>
      simp only [List.cons_append, List.cons.injEq] at hsplit
      simp [← hsplit.1, hc]

/-! ## Pack expansion -/

theorem expand_ok {α : Type} (f : Nat → Except CompileError α) (g : Nat → α) (L : List Nat)
    (h : ∀ x ∈ L, f x = .ok (g x)) : expand f L = .ok (L.map g) := by
  induction L with
  | nil => rfl
  | cons x xs ih =>
    have hx := h x (List.mem_cons_self _ _)
    have hxs := ih (fun y hy => h y (List.mem_cons_of_mem _ hy))
    simp [expand, hx, hxs]

/-- A pack expansion compiles when every instantiation does. -/
theorem expand_ok_of_forall {α : Type} (f : Nat → Except CompileError α) (L : List Nat)
    (h : ∀ x ∈ L, ∃ y, f x = .ok y) : ∃ ys, expand f L = .ok ys := by
  induction L with
  | nil => exact ⟨[], rfl⟩
  | cons x xs ih =>
    obtain ⟨y, hy⟩ := h x (List.mem_cons_self _ _)
    obtain ⟨ys, hys⟩ := ih (fun z hz => h z (List.mem_cons_of_mem _ hz))
    exact ⟨y :: ys, by simp [expand, hy, hys]⟩

/-- The result of a pack expansion has one element per pack element, in order. -/
theorem expand_spec {α : Type} (f : Nat → Except CompileError α) (L : List Nat) (ys : List α)
    (h : expand f L = .ok ys) :
    ys.length = L.length ∧
      ∀ (i : Nat) (x : Nat), L[i]? = some x → ∃ y, ys[i]? = some y ∧ f x = .ok y := by
  induction L generalizing ys with
  | nil =>
    simp only [expand, Except.ok.injEq] at h
    subst h
    simp
  | cons a as ih =>
    unfold expand at h
    cases hfa : f a with
    | error e => simp [hfa] at h
    | ok y =>
      cases has : expand f as with
      | error e => simp [hfa, has] at h
      | ok zs =>
        simp only [hfa, has, Except.ok.injEq] at h
        subst h
        obtain ⟨hlen, hslots⟩ := ih zs has
        refine ⟨by simp [hlen], ?_⟩
        intro i x hx
        cases i with
        | zero =>
          simp only [List.getElem?_cons_zero, Option.some.injEq] at hx
          subst hx
          exact ⟨y, by simp, hfa⟩
        | succ j =>
          simp only [List.getElem?_cons_succ] at hx ⊢
          exact hslots j x hx

/-! ## Index sequences -/

theorem add_offset_getElem? (Offset : Nat) (L : List Nat) (i : Nat) :
    (detail.add_offset Offset L)[i]? = L[i]?.map (fun x => (Offset + x) % SIZE_MOD) := by
  unfold detail.add_offset
  simp

theorem make_offset_length (Offset N : Nat) :
    (detail.make_offset_index_sequence Offset N).length = N := by
  simp [detail.make_offset_index_sequence, detail.add_offset]

theorem make_offset_getElem? (Offset N i : Nat) (h : i < N) :
    (detail.make_offset_index_sequence Offset N)[i]? = some ((Offset + i) % SIZE_MOD) := by
  unfold detail.make_offset_index_sequence
  rw [add_offset_getElem?, List.getElem?_range h]
  rfl

theorem make_offset_mem (Offset N x : Nat) (h : x ∈ detail.make_offset_index_sequence Offset N) :
    ∃ i, i < N ∧ x = (Offset + i) % SIZE_MOD := by
  unfold detail.make_offset_index_sequence detail.add_offset at h
  simp only [List.mem_map, List.mem_range] at h
  obtain ⟨i, hi, rfl⟩ := h
  exact ⟨i, hi, rfl⟩

/-- Under the signature model every probe of an index list compiles, and the table has one
slot per index, in order. -/
theorem get_enum_array_model (C : Compiler) (E : EnumDecl) (L : List Nat)
    (h : ∀ x ∈ L, SigModel C .detail_get_enum_member_name E (Int.ofNat x)) :
    ∃ arr, get_enum_array C E L = .ok arr ∧ arr.length = L.length ∧
      ∀ (i : Nat) (x : Nat), L[i]? = some x →
        ∃ s, arr[i]? = some s ∧ get_enum_member_name C E (Int.ofNat x) = .ok s := by
  obtain ⟨arr, harr⟩ := expand_ok_of_forall
    (fun i => detail.get_enum_member_name
      (C.funcsig .detail_get_enum_member_name E (Int.ofNat i))) L
    (fun x hx => by
      obtain ⟨s, hs, _⟩ := detail_name_model_empty_iff C _ E _ (h x hx)
      exact ⟨s, hs⟩)
  obtain ⟨hlen, hslots⟩ := expand_spec _ L arr harr
  exact ⟨arr, harr, hlen, hslots⟩

/-! ## The oracles -/

/-- C1: under the signature model `pre ++ "<" ++ T ++ "," ++ A ++ ">" ++ post`, the call
`is_enum_member_valid<E, v>()` compiles and returns true when `E` declares a member equal
to `v` and false otherwise. -/
theorem is_enum_member_valid_decides_membership (C : Compiler) (E : EnumDecl) (v : Int)
    (h : SigModel C .detail_is_enum_member_valid E v) :
    is_enum_member_valid C E v = .ok (E.declares v) ∧
      (E.declares v = true ↔ ∃ name, (name, v) ∈ E.members) :=
  ⟨detail_valid_model C _ E v h, declares_iff E v⟩

/-- Witness of C1 on `e_example`: 3 is not a member, 4 is. -/
theorem is_enum_member_valid_decides_membership_witness :
    SigModel msvc .detail_is_enum_member_valid e_example 3 ∧
    SigModel msvc .detail_is_enum_member_valid e_example 4 ∧
    is_enum_member_valid msvc e_example 3 = .ok false ∧
    is_enum_member_valid msvc e_example 4 = .ok true :=
  ⟨by decide, by decide,
    (is_enum_member_valid_decides_membership msvc e_example 3 (by decide)).1,
    (is_enum_member_valid_decides_membership msvc e_example 4 (by decide)).1⟩

/-- C2: under the signature model with no `>` after the template argument list, the call
`get_enum_member_name<E, v>()` compiles and returns exactly the text `A` of the second
template argument, which is the identifier of a member of value `v`, when `v` is declared, and
the empty string when it is not (`A` then starts with a parenthesis). -/
theorem get_enum_member_name_exact (C : Compiler) (E : EnumDecl) (v : Int)
    (h : SigModel C .detail_get_enum_member_name E v) (hgt : '>' ∉ C.post) :
    (E.declares v = true →
      get_enum_member_name C E v = .ok (C.template_arg E v) ∧
      (C.template_arg E v, v) ∈ E.members) ∧
    (E.declares v = false →
      get_enum_member_name C E v = .ok [] ∧ (C.template_arg E v).head? = some '(') := by
  have hname := detail_name_model C _ E v h hgt
  unfold get_enum_member_name
  rw [hname, declares_eq_isSome]
  unfold Compiler.template_arg
  cases hm : E.member_name v with
  | none => simp
  | some name => simpa using member_name_some_mem E v name hm

/-- Witness of C2 on `e_example`: 6 is `BUZZ`, 3 has no name. -/
theorem get_enum_member_name_exact_witness :
    SigModel msvc .detail_get_enum_member_name e_example 6 ∧
    SigModel msvc .detail_get_enum_member_name e_example 3 ∧ '>' ∉ msvc.post ∧
    get_enum_member_name msvc e_example 6 = .ok "BUZZ".toList ∧
    get_enum_member_name msvc e_example 3 = .ok "".toList :=
  ⟨by decide, by decide, by decide,
    ((get_enum_member_name_exact msvc e_example 6 (by decide) (by decide)).1 (by decide)).1,
    ((get_enum_member_name_exact msvc e_example 3 (by decide) (by decide)).2 (by decide)).1⟩

/-- C3: under the signature model for both instantiations, `get_enum_member_name<E, v>()`
is non-empty if and only if `is_enum_member_valid<E, v>()` is true. -/
theorem name_nonempty_iff_valid (C : Compiler) (E : EnumDecl) (v : Int)
    (hv : SigModel C .detail_is_enum_member_valid E v)
    (hn : SigModel C .detail_get_enum_member_name E v) :
    ∃ name b, get_enum_member_name C E v = .ok name ∧ is_enum_member_valid C E v = .ok b ∧
      (name ≠ [] ↔ b = true) := by
  obtain ⟨s, hs, hiff⟩ := detail_name_model_empty_iff C _ E v hn
  refine ⟨s, E.declares v, hs, detail_valid_model C _ E v hv, ?_⟩
  rw [Ne, hiff]
  simp

/-- Witness of C3 on `e_example` at 5 (`FIZZ`). -/
theorem name_nonempty_iff_valid_witness :
    SigModel msvc .detail_is_enum_member_valid e_example 5 ∧
    SigModel msvc .detail_get_enum_member_name e_example 5 ∧
    ∃ name b, get_enum_member_name msvc e_example 5 = .ok name ∧
      is_enum_member_valid msvc e_example 5 = .ok b ∧ (name ≠ [] ↔ b = true) :=
  ⟨by decide, by decide, name_nonempty_iff_valid msvc e_example 5 (by decide) (by decide)⟩

/-! ## The tables -/

/-- C4: under the signature model, `get_enum_array<E, N>()` compiles, has length `N`, and its
slot `i` is the result of `get_enum_member_name<E, i>()` for every `i < N`. -/
theorem get_enum_array_N_slots (C : Compiler) (E : EnumDecl) (N : Nat)
    (h : ∀ i < N, SigModel C .detail_get_enum_member_name E (Int.ofNat i)) :
    ∃ arr, get_enum_array_N C E N = .ok arr ∧ arr.length = N ∧
      ∀ i < N, ∃ s, arr[i]? = some s ∧ get_enum_member_name C E (Int.ofNat i) = .ok s := by
  obtain ⟨arr, harr, hlen, hslots⟩ := get_enum_array_model C E (List.range N)
    (fun x hx => h x (List.mem_range.mp hx))
  refine ⟨arr, harr, by simpa using hlen, ?_⟩
  intro i hi
  exact hslots i i (List.getElem?_range hi)

/-- Witness of C4: the seven-slot table of `e_example`. -/
theorem get_enum_array_N_slots_witness :
    (∀ i < 7, SigModel msvc .detail_get_enum_member_name e_example (Int.ofNat i)) ∧
    get_enum_array_N msvc e_example 7 = .ok ["FOO".toList, "BAR".toList, [], [],
      "FOOBAR".toList, "FIZZ".toList, "BUZZ".toList] ∧
    ∃ arr, get_enum_array_N msvc e_example 7 = .ok arr ∧ arr.length = 7 ∧
      ∀ i < 7, ∃ s, arr[i]? = some s ∧
        get_enum_member_name msvc e_example (Int.ofNat i) = .ok s :=
  ⟨by decide, by decide, get_enum_array_N_slots msvc e_example 7 (by decide)⟩

/-- C5: under the signature model, for `Start <= End` the call
`get_enum_array_range<E, Start, End>()` compiles, has length `End - Start`, and its slot `i`
is the result of `get_enum_member_name<E, Start + i>()`. -/
theorem get_enum_array_range_slots (C : Compiler) (E : EnumDecl) (Start End : Nat)
    (hle : Start ≤ End) (hEnd : End < SIZE_MOD)
    (h : ∀ i < End - Start, SigModel C .detail_get_enum_member_name E (Int.ofNat (Start + i))) :
    ∃ arr, get_enum_array_range C E Start End = .ok arr ∧ arr.length = End - Start ∧
      ∀ i < End - Start, ∃ s, arr[i]? = some s ∧
        get_enum_member_name C E (Int.ofNat (Start + i)) = .ok s := by
  have hmod : ∀ i < End - Start, (Start + i) % SIZE_MOD = Start + i := fun i hi =>
    Nat.mod_eq_of_lt (by omega)
  obtain ⟨arr, harr, hlen, hslots⟩ := get_enum_array_model C E
    (detail.make_offset_index_sequence Start (End - Start))
    (fun x hx => by
      obtain ⟨i, hi, rfl⟩ := make_offset_mem _ _ _ hx
      rw [hmod i hi]
      exact h i hi)
  refine ⟨arr, ?_, by rw [hlen, make_offset_length], ?_⟩
  · unfold get_enum_array_range
    rw [if_pos hle, harr]
  · intro i hi
    have := make_offset_getElem? Start (End - Start) i hi
    rw [hmod i hi] at this
    exact hslots i _ this

/-- Witness of C5: the range `[4, 7)` of `e_example`. -/
theorem get_enum_array_range_slots_witness :
    (∀ i < 7 - 4, SigModel msvc .detail_get_enum_member_name e_example (Int.ofNat (4 + i))) ∧
    get_enum_array_range msvc e_example 4 7
      = .ok ["FOOBAR".toList, "FIZZ".toList, "BUZZ".toList] ∧
    ∃ arr, get_enum_array_range msvc e_example 4 7 = .ok arr ∧ arr.length = 7 - 4 ∧
      ∀ i < 7 - 4, ∃ s, arr[i]? = some s ∧
        get_enum_member_name msvc e_example (Int.ofNat (4 + i)) = .ok s :=
  ⟨by decide, by decide,
    get_enum_array_range_slots msvc e_example 4 7 (by decide) (by decide) (by decide)⟩

/-- C6: under the signature model, `get_enum_array_range<E, Start, End>()` fails to compile
if and only if `Start > End`, the failure then being the `static_assert`; `Start == End`
compiles and yields the empty table. -/
theorem get_enum_array_range_fails_iff (C : Compiler) (E : EnumDecl) (Start End : Nat)
    (hEnd : End < SIZE_MOD)
    (h : ∀ i < End - Start, SigModel C .detail_get_enum_member_name E (Int.ofNat (Start + i))) :
    ((∃ e, get_enum_array_range C E Start End = .error e) ↔ End < Start) ∧
    (End < Start → get_enum_array_range C E Start End = .error .static_assert) ∧
    (Start ≤ End → ∃ arr, get_enum_array_range C E Start End = .ok arr) ∧
    get_enum_array_range C E Start Start = .ok [] := by
  have hfail : End < Start → get_enum_array_range C E Start End = .error .static_assert := by
    intro hlt
    unfold get_enum_array_range
    rw [if_neg (by omega)]
  have hok : Start ≤ End → ∃ arr, get_enum_array_range C E Start End = .ok arr := by
    intro hle
    have hmod : ∀ i < End - Start, (Start + i) % SIZE_MOD = Start + i := fun i hi =>
      Nat.mod_eq_of_lt (by omega)
    obtain ⟨arr, harr, _, _⟩ := get_enum_array_model C E
      (detail.make_offset_index_sequence Start (End - Start))
      (fun x hx => by
        obtain ⟨i, hi, rfl⟩ := make_offset_mem _ _ _ hx
        rw [hmod i hi]
        exact h i hi)
    exact ⟨arr, by unfold get_enum_array_range; rw [if_pos hle, harr]⟩
  refine ⟨⟨?_, fun hlt => ⟨_, hfail hlt⟩⟩, hfail, hok, ?_⟩
  · rintro ⟨e, he⟩
    by_contra hnot
    obtain ⟨arr, harr⟩ := hok (by omega)
    rw [harr] at he
    exact Except.noConfusion he
  · unfold get_enum_array_range
    rw [if_pos (Nat.le_refl _), Nat.sub_self]
    rfl

/-- Witness of C6: on `e_example` the range `[4, 7)` compiles and the range `[7, 4)` is
rejected by the assertion. -/
theorem get_enum_array_range_fails_iff_witness :
    (7 : Nat) < SIZE_MOD ∧
    (∀ i < 7 - 4, SigModel msvc .detail_get_enum_member_name e_example (Int.ofNat (4 + i))) ∧
    (∃ arr, get_enum_array_range msvc e_example 4 7 = .ok arr) ∧
    get_enum_array_range msvc e_example 7 4 = .error .static_assert :=
  ⟨by decide, by decide,
    (get_enum_array_range_fails_iff msvc e_example 4 7 (by decide) (by decide)).2.2.1
      (by decide),
    (get_enum_array_range_fails_iff msvc e_example 7 4 (by decide) (by decide)).2.1
      (by decide)⟩

/-- C7: under the signature model, `get_enum_array<E>(L)` of `const_enum.hpp` compiles for
every index list `L`, has length `len(L)`, and its slot `i` is the result of
`get_enum_member_name<E, L[i]>()`, whatever the order or repetitions in `L`. -/
theorem get_enum_array_probes_list (C : Compiler) (E : EnumDecl) (L : List Nat)
    (h : ∀ x ∈ L, SigModel C .detail_get_enum_member_name E (Int.ofNat x)) :
    ∃ arr, get_enum_array C E L = .ok arr ∧ arr.length = L.length ∧
      ∀ (i : Nat) (x : Nat), L[i]? = some x →
        ∃ s, arr[i]? = some s ∧ get_enum_member_name C E (Int.ofNat x) = .ok s :=
  get_enum_array_model C E L h

/-- Witness of C7: an unsorted list with a repeated index on `e_example`. -/
theorem get_enum_array_probes_list_witness :
    (∀ x ∈ [6, 0, 3, 6, 4],
      SigModel msvc .detail_get_enum_member_name e_example (Int.ofNat x)) ∧
    get_enum_array msvc e_example [6, 0, 3, 6, 4]
      = .ok ["BUZZ".toList, "FOO".toList, [], "BUZZ".toList, "FOOBAR".toList] ∧
    ∃ arr, get_enum_array msvc e_example [6, 0, 3, 6, 4] = .ok arr ∧
      arr.length = [6, 0, 3, 6, 4].length ∧
      ∀ (i : Nat) (x : Nat), [6, 0, 3, 6, 4][i]? = some x →
        ∃ s, arr[i]? = some s ∧ get_enum_member_name msvc e_example (Int.ofNat x) = .ok s :=
  ⟨by decide, by decide, get_enum_array_probes_list msvc e_example [6, 0, 3, 6, 4] (by decide)⟩

/-- C8: the overload `get_enum_array<E, N>(std::index_sequence<Is...>)` of `enum.hpp` called
with `N = 5` and the three-element list `make_offset_index_sequence<6, 3>()` compiles and
returns a table of five slots, two more than the index list has. -/
theorem enum_hpp_get_enum_array_length_exceeds_list :
    enum_hpp.make_offset_index_sequence 6 3 = [6, 7, 8] ∧
    enum_hpp.get_enum_array msvc e_example_flat 5 (enum_hpp.make_offset_index_sequence 6 3)
      = .ok ["FOOBAR".toList, "FIZZ".toList, "BUZZ".toList, [], []] ∧
    ¬ ∀ arr, enum_hpp.get_enum_array msvc e_example_flat 5
        (enum_hpp.make_offset_index_sequence 6 3) = .ok arr →
      arr.length = (enum_hpp.make_offset_index_sequence 6 3).length := by
  refine ⟨by decide, by decide, ?_⟩
  intro hall
  have := hall _ (by decide : enum_hpp.get_enum_array msvc e_example_flat 5
    (enum_hpp.make_offset_index_sequence 6 3)
      = .ok ["FOOBAR".toList, "FIZZ".toList, "BUZZ".toList, [], []])
  revert this
  decide

/-- Under the signature model, and for indices that are values of the enumeration, in the
table built by `get_enum_array<E>(L)` slot `i` is the empty string if and only if
`is_enum_member_valid<E, L[i]>()` is false, that is if and only if `E` declares no member
equal to `L[i]`. -/
theorem slot_empty_iff_not_member (C : Compiler) (E : EnumDecl) (L : List Nat)
    (hn : ∀ x ∈ L, SigModel C .detail_get_enum_member_name E (Int.ofNat x))
    (hv : ∀ x ∈ L, SigModel C .detail_is_enum_member_valid E (Int.ofNat x)) :
    ∃ arr, get_enum_array C E L = .ok arr ∧ arr.length = L.length ∧
      ∀ (i : Nat) (x : Nat), L[i]? = some x →
        ∃ s, arr[i]? = some s ∧
          (s = [] ↔ is_enum_member_valid C E (Int.ofNat x) = .ok false) ∧
          (s = [] ↔ E.declares (Int.ofNat x) = false) := by
  obtain ⟨arr, harr, hlen, hslots⟩ := get_enum_array_model C E L hn
  refine ⟨arr, harr, hlen, ?_⟩
  intro i x hx
  obtain ⟨s, hs, hname⟩ := hslots i x hx
  have hmem : x ∈ L := List.getElem?_mem hx
  obtain ⟨s', hs', hiff⟩ := detail_name_model_empty_iff C _ E _ (hn x hmem)
  have hss : s = s' := by
    unfold get_enum_member_name at hname
    rw [hs'] at hname
    exact (Except.ok.inj hname).symm
  subst hss
  refine ⟨s, hs, ?_, hiff⟩
  unfold is_enum_member_valid
  rw [detail_valid_model C _ E _ (hv x hmem), hiff]
  constructor
  · intro hd; rw [hd]
  · intro hd; exact Except.ok.inj hd

/-- In the seven-slot table of `e_example` exactly slots 2 and 3 are empty. -/
theorem slot_empty_iff_not_member_witness :
    (∀ x ∈ List.range 7,
      SigModel msvc .detail_get_enum_member_name e_example (Int.ofNat x)) ∧
    (∀ x ∈ List.range 7,
      SigModel msvc .detail_is_enum_member_valid e_example (Int.ofNat x)) ∧
    (get_enum_array msvc e_example (List.range 7)).map (fun arr => arr.map (fun s => s == []))
      = .ok [false, false, true, true, false, false, false] ∧
    ∃ arr, get_enum_array msvc e_example (List.range 7) = .ok arr ∧
      arr.length = (List.range 7).length ∧
      ∀ (i : Nat) (x : Nat), (List.range 7)[i]? = some x →
        ∃ s, arr[i]? = some s ∧
          (s = [] ↔ is_enum_member_valid msvc e_example (Int.ofNat x) = .ok false) ∧
          (s = [] ↔ e_example.declares (Int.ofNat x) = false) :=
  ⟨by decide, by decide, by decide,
    slot_empty_iff_not_member msvc e_example (List.range 7) (by decide) (by decide)⟩

/-- C9: for the enumeration `Foo<int, char>::Color`, whose spelling has a `<` and a comma,
the table built by `get_enum_array<E>(L)` for the list `0, 1, 2` compiles and its slot 2 is
not empty although the enumeration declares no member equal to 2: the scan starts after the
comma inside `Foo<int,char>` of the cast expression. -/
theorem nested_template_enum_slot_not_empty :
    e_tmpl.declares 2 = false ∧
    get_enum_array msvc e_tmpl [0, 1, 2]
      = .ok ["char>::Color,Red".toList, "char>::Color,Green".toList,
          "char>::Color)0x2".toList] ∧
    is_enum_member_valid msvc e_tmpl 2 = .ok true ∧
    ¬ ∀ arr, get_enum_array msvc e_tmpl [0, 1, 2] = .ok arr →
      (arr[2]? = some [] ↔ e_tmpl.declares 2 = false) := by
  refine ⟨by decide, by decide, by decide, ?_⟩
  intro hall
  have := hall _ (by decide : get_enum_array msvc e_tmpl [0, 1, 2]
    = .ok ["char>::Color,Red".toList, "char>::Color,Green".toList,
        "char>::Color)0x2".toList])
  revert this
  decide

/-! ## Sequence offsetting -/

/-- C10, as stated, fails: with `Offset = 2^64 - 1` and `N = 2` the element of index 1 is
`0`, the sum having wrapped in `size_t`, and not `Offset + 1`. -/
theorem make_offset_index_sequence_wraps :
    detail.make_offset_index_sequence 18446744073709551615 2 = [18446744073709551615, 0] ∧
    ¬ ∀ i < 2, (detail.make_offset_index_sequence 18446744073709551615 2)[i]?
        = some (18446744073709551615 + i) := by
  refine ⟨by decide, ?_⟩
  intro hall
  have := hall 1 (by decide)
  revert this
  decide

/-- C10, amended: `make_offset_index_sequence<Offset, N>()`, in both headers, is the ordered
list of exactly `N` integers whose `i`-th element is `Offset + i` reduced modulo `2^64`, hence
`Offset + i` itself whenever `Offset + N <= 2^64`; for `N = 0` it is the empty list; and
`add_offset<Offset>(L)` maps every element `x` of `L` to `Offset + x` modulo `2^64`,
preserving order and length. -/
theorem make_offset_index_sequence_spec (Offset N : Nat) :
    (detail.make_offset_index_sequence Offset N).length = N ∧
    (∀ i < N, (detail.make_offset_index_sequence Offset N)[i]?
      = some ((Offset + i) % SIZE_MOD)) ∧
    (Offset + N ≤ SIZE_MOD →
      ∀ i < N, (detail.make_offset_index_sequence Offset N)[i]? = some (Offset + i)) ∧
    detail.make_offset_index_sequence Offset 0 = [] ∧
    (∀ L : List Nat, (detail.add_offset Offset L).length = L.length ∧
      ∀ i : Nat, (detail.add_offset Offset L)[i]?
        = L[i]?.map (fun x => (Offset + x) % SIZE_MOD)) ∧
    enum_hpp.make_offset_index_sequence Offset N = detail.make_offset_index_sequence Offset N ∧
    (∀ L : List Nat, enum_hpp.add_offset Offset L = detail.add_offset Offset L) := by
  refine ⟨make_offset_length Offset N, fun i hi => make_offset_getElem? Offset N i hi, ?_,
    rfl, fun L => ⟨by simp [detail.add_offset], fun i => add_offset_getElem? Offset L i⟩,
    rfl, fun L => rfl⟩
  intro hsum i hi
  rw [make_offset_getElem? Offset N i hi, Nat.mod_eq_of_lt (by omega)]

/-- Witness of C10 amended: the sequence `4, 5, 6` of the ranged example. -/
theorem make_offset_index_sequence_spec_witness :
    (4 : Nat) + 3 ≤ SIZE_MOD ∧ detail.make_offset_index_sequence 4 3 = [4, 5, 6] ∧
    ∀ i < 3, (detail.make_offset_index_sequence 4 3)[i]? = some (4 + i) :=
  ⟨by decide, by decide, (make_offset_index_sequence_spec 4 3).2.2.1 (by decide)⟩

/-! ## Which signatures are rejected -/

/-- A forward search either fails or lands inside the view. -/
theorem find_eq_npos_or_lt (s : Str) (c : Char) (pos : Nat) :
    find s c pos = npos ∨ find s c pos < s.length := by
  unfold find
  simp only
  by_cases hk : (s.drop pos).indexOf c < (s.drop pos).length
  · right
    rw [if_pos hk]
    rw [List.length_drop] at hk
    rw [size_mod_eq]
    omega
  · left
    rw [if_neg hk]

/-- A backward search fails exactly when the character does not occur. -/
theorem rfind_eq_npos_iff (s : Str) (c : Char) (h : s.length < npos) :
    rfind s c = npos ↔ c ∉ s := by
  constructor
  · intro hr hmem
    have hk : s.reverse.indexOf c < s.length := by
      have := List.indexOf_lt_length.mpr (List.mem_reverse.mpr hmem)
      simpa using this
    unfold rfind at hr
    simp only [if_pos hk] at hr
    rw [npos_eq] at h hr
    rw [size_mod_eq] at hr
    omega
  · exact rfind_of_not_mem s c

/-- In a view shorter than `npos` the value `start` is never `npos`. -/
theorem start_of_ne_npos (s : Str) (h : s.length < npos) : start_of s ≠ npos := by
  unfold start_of
  rcases find_eq_npos_or_lt s ',' (rfind s '<') with hf | hf
  · rw [hf]; decide
  · rw [npos_eq] at h ⊢
    rw [size_mod_eq]
    omega

/-- When the comma search fails, `start` wraps around to `0`. -/
theorem start_of_wraps (s : Str) (h : find s ',' (rfind s '<') = npos) : start_of s = 0 := by
  unfold start_of
  rw [h]
  decide

/-- C15: for every signature shorter than `2^64 - 1` characters, the `static_assert` of
`get_enum_member_name` (in both headers) fails if and only if the signature has no `>`;
its `start != npos` half never fails, nor does the assertion of `is_enum_member_valid`,
because a failed comma search makes `start = npos + 1` wrap to `0`, and the function then
tests the first character. -/
theorem get_enum_member_name_static_assert_iff (s : Str) (h : s.length < npos) :
    (detail.get_enum_member_name s = .error .static_assert ↔ '>' ∉ s) ∧
    (enum_hpp.get_enum_member_name s = .error .static_assert ↔ '>' ∉ s) ∧
    start_of s ≠ npos ∧
    detail.is_enum_member_valid s ≠ .error .static_assert ∧
    (find s ',' (rfind s '<') = npos → start_of s = 0 ∧
      ∀ c, s[0]? = some c → '>' ∈ s →
        detail.get_enum_member_name s
          = (if c = '(' then .ok [] else substr_view s 0 (end_of s))) := by
  have hstart := start_of_ne_npos s h
  have hend : end_of s = npos ↔ '>' ∉ s := rfind_eq_npos_iff s '>' h
  have key : detail.get_enum_member_name s = .error .static_assert ↔ '>' ∉ s := by
    rw [← hend]
    unfold detail.get_enum_member_name
    simp only
    by_cases he : end_of s = npos
    · simp [he]
    · rw [if_neg (by simp [hstart, he])]
      simp only [he, iff_false]
      cases hs : s[start_of s]? with
      | none => simp
      | some c =>
        simp only
        by_cases hc : c = '('
        · simp [hc]
        · simp only [hc, if_false]
          unfold substr_view
          split <;> simp
  have hvalid : detail.is_enum_member_valid s ≠ .error .static_assert := by
    unfold detail.is_enum_member_valid
    simp only [if_neg hstart]
    cases s[start_of s]? <;> simp
  refine ⟨key, key, hstart, hvalid, ?_⟩
  intro hf
  have h0 := start_of_wraps s hf
  refine ⟨h0, ?_⟩
  intro c hc hgt
  have he : end_of s ≠ npos := fun he => (hend.mp he) hgt
  have hlt : end_of s < SIZE_MOD := by
    have : end_of s < s.length := by
      unfold end_of rfind
      have hk : s.reverse.indexOf '>' < s.length := by
        have := List.indexOf_lt_length.mpr (List.mem_reverse.mpr hgt)
        simpa using this
      simp only [if_pos hk]
      rw [npos_eq] at h
      rw [size_mod_eq]
      omega
    rw [npos_eq] at h
    rw [size_mod_eq]
    omega
  unfold detail.get_enum_member_name
  simp only [h0]
  rw [if_neg (by simp [he]; decide), hc]
  simp only [Nat.sub_zero]
  rw [Nat.add_mod_right, Nat.mod_eq_of_lt hlt]

/-- Witness of C15: a signature without comma after its last `<`, which is accepted and
read from its first character. -/
theorem get_enum_member_name_static_assert_iff_witness :
    "bool f<x>(void)".toList.length < npos ∧
    find "bool f<x>(void)".toList ',' (rfind "bool f<x>(void)".toList '<') = npos ∧
    start_of "bool f<x>(void)".toList = 0 ∧
    detail.get_enum_member_name "bool f<x>(void)".toList = .ok "bool f<x".toList ∧
    (detail.get_enum_member_name "bool f(void)".toList = .error .static_assert ↔
      '>' ∉ "bool f(void)".toList) :=
  ⟨by decide, by decide,
    ((get_enum_member_name_static_assert_iff "bool f<x>(void)".toList (by decide)).2.2.2.2
      (by decide)).1,
    by decide,
    (get_enum_member_name_static_assert_iff "bool f(void)".toList (by decide)).1⟩

/-! ## The text before the last `<` -/

/-- A string containing `c` splits at its first occurrence of `c`. -/
theorem split_first (t : Str) (c : Char) (hc : c ∈ t) :
    t = t.take (t.indexOf c) ++ c :: t.drop (t.indexOf c + 1) ∧
      c ∉ t.take (t.indexOf c) := by
  obtain ⟨as, bs, ht, has⟩ := List.eq_append_cons_of_mem hc
  have hidx : t.indexOf c = as.length := by
    rw [ht, List.indexOf_append_of_not_mem has, List.indexOf_cons_self]
    simp
  have htake : t.take (t.indexOf c) = as := by
    rw [hidx, ht, List.take_left]
  have hdrop : t.drop (t.indexOf c + 1) = bs := by
    rw [hidx, ht]
    have : as ++ c :: bs = (as ++ [c]) ++ bs := by simp
    rw [this, List.drop_left' (by simp)]
  rw [htake, hdrop]
  exact ⟨ht, has⟩

/-- Both scans on `p ++ "<" ++ T ++ "," ++ rest`, where the tail has no `<`, `T` no comma
and `rest` a `>`, return results that are determined by `rest` alone. -/
theorem scan_tail_decomposed (p T rest : Str) (hT : '<' ∉ T) (hTc : ',' ∉ T)
    (hrest : '<' ∉ rest) (hgt : '>' ∈ rest)
    (hp : (p ++ '<' :: (T ++ ',' :: rest)).length < npos) :
    ∃ r1 r2 c tl, rest = r1 ++ '>' :: r2 ∧ '>' ∉ r2 ∧ rest = c :: tl ∧
      detail.is_enum_member_valid (p ++ '<' :: (T ++ ',' :: rest)) = .ok (c != '(') ∧
      detail.get_enum_member_name (p ++ '<' :: (T ++ ',' :: rest))
        = .ok (if c = '(' then [] else r1) ∧
      (exists_last_split rest '>' hgt).choose = r1 := by
  have hsplit := (exists_last_split rest '>' hgt).choose_spec
  obtain ⟨r2, hr, hr2⟩ := hsplit
  generalize (exists_last_split rest '>' hgt).choose = r1 at hr
  cases hrest' : rest with
  | nil => rw [hrest'] at hgt; simp at hgt
  | cons c tl =>
    refine ⟨r1, r2, c, tl, by rw [← hrest']; exact hr, hr2, rfl, ?_, ?_, rfl⟩
    · rw [hrest'] at hrest hp
      exact detail_valid_shape p T tl c hT hTc hrest hp
    · have hr1lt : '<' ∉ r1 := fun hm => hrest (by rw [hr]; exact List.mem_append_left _ hm)
      have hr2lt : '<' ∉ r2 := fun hm =>
        hrest (by rw [hr]; exact List.mem_append_right _ (List.mem_cons_of_mem _ hm))
      have hcons : c :: tl = r1 ++ '>' :: r2 := hrest'.symm.trans hr
      rw [hr] at hp
      rw [hcons, detail_name_shape p T r1 r2 hT hTc hr1lt hr2lt hr2 hp]
      have hhead : (r1 ++ ['>']).head? = some c := by
        have h1 : (r1 ++ '>' :: r2).head? = some c := by rw [← hcons]; rfl
        cases r1 with
        | nil => simpa using h1
        | cons a r => simpa using h1
      rw [hhead]
      simp

/-- C17: for all strings `p`, `q` and every tail `t` without `<` that has a comma and a `>`
after its first comma, both scans compile on `p ++ "<" ++ t` and on `q ++ "<" ++ t` and
return the same boolean and the same text on both. -/
theorem scan_ignores_text_before_last_lt (p q t : Str) (hlt : '<' ∉ t) (hc : ',' ∈ t)
    (hgt : '>' ∈ t.drop (t.indexOf ',' + 1))
    (hp : (p ++ '<' :: t).length < npos) (hq : (q ++ '<' :: t).length < npos) :
    detail.is_enum_member_valid (p ++ '<' :: t)
      = detail.is_enum_member_valid (q ++ '<' :: t) ∧
    detail.get_enum_member_name (p ++ '<' :: t)
      = detail.get_enum_member_name (q ++ '<' :: t) ∧
    (∃ b, detail.is_enum_member_valid (p ++ '<' :: t) = .ok b) ∧
    (∃ s, detail.get_enum_member_name (p ++ '<' :: t) = .ok s) := by
  obtain ⟨ht, hTc⟩ := split_first t ',' hc
  generalize t.take (t.indexOf ',') = T at ht hTc
  generalize t.drop (t.indexOf ',' + 1) = rest at ht hgt
  subst ht
  have hT : '<' ∉ T := fun hm => hlt (List.mem_append_left _ hm)
  have hrest : '<' ∉ rest := fun hm =>
    hlt (List.mem_append_right _ (List.mem_cons_of_mem _ hm))
  obtain ⟨r1, r2, c, tl, _, _, hct, hvp, hnp, hch⟩ :=
    scan_tail_decomposed p T rest hT hTc hrest hgt hp
  obtain ⟨r1', r2', c', tl', _, _, hct', hvq, hnq, hch'⟩ :=
    scan_tail_decomposed q T rest hT hTc hrest hgt hq
  have hcc : c = c' := by
    rw [hct] at hct'
    exact (List.cons.inj hct').1
  have hrr : r1 = r1' := hch.symm.trans hch'
  subst hcc hrr
  exact ⟨hvp.trans hvq.symm, hnp.trans hnq.symm, ⟨_, hvp⟩, ⟨_, hnp⟩⟩

/-- Witness of C17: the return type of `get_enum_member_name`, with its own `<`, `,` and
`>`, against a short text in front of the same template argument list. -/
theorem scan_ignores_text_before_last_lt_witness :
    '<' ∉ "enum e_example,BUZZ>(void)".toList ∧ ',' ∈ "enum e_example,BUZZ>(void)".toList ∧
    '>' ∈ "enum e_example,BUZZ>(void)".toList.drop
      ("enum e_example,BUZZ>(void)".toList.indexOf ',' + 1) ∧
    detail.get_enum_member_name
      (("class std::basic_string_view<char,struct std::char_traits<char> > " ++
        "__cdecl const_enum::detail::get_enum_member_name").toList
        ++ '<' :: "enum e_example,BUZZ>(void)".toList)
      = detail.get_enum_member_name
        ("bool f".toList ++ '<' :: "enum e_example,BUZZ>(void)".toList) ∧
    detail.get_enum_member_name
      ("bool f".toList ++ '<' :: "enum e_example,BUZZ>(void)".toList) = .ok "BUZZ".toList :=
  ⟨by decide, by decide, by decide,
    (scan_ignores_text_before_last_lt
      ("class std::basic_string_view<char,struct std::char_traits<char> > " ++
        "__cdecl const_enum::detail::get_enum_member_name").toList
      "bool f".toList "enum e_example,BUZZ>(void)".toList
      (by decide) (by decide) (by decide) (by decide) (by decide)).2.1,
    by decide⟩

/-! ## Bounds of the scan -/

/-- On a signature `pre ++ "<" ++ T ++ "," ++ A ++ ">" ++ post` with no `>` in `post`, the
value `end` is the position of the `>` that closes the template argument list. -/
theorem end_of_shape (pre T A post : Str) (hgt : '>' ∉ post)
    (hlen : (pre ++ '<' :: (T ++ ',' :: (A ++ '>' :: post))).length < npos) :
    end_of (pre ++ '<' :: (T ++ ',' :: (A ++ '>' :: post)))
      = pre.length + T.length + 2 + A.length := by
  have hre : pre ++ '<' :: (T ++ ',' :: (A ++ '>' :: post))
      = (pre ++ '<' :: (T ++ ',' :: A)) ++ '>' :: post := by simp
  unfold end_of
  rw [hre, rfind_append_cons _ _ _ hgt (by rw [← hre]; exact hlen)]
  simp; omega

/-- C16: on every signature `pre ++ "<" ++ T ++ "," ++ A ++ ">" ++ post` with no `<` after
the first one shown, no comma in `T` and no `>` in `post`, the positions satisfy
`start < length`, `start <= end < length`, the read `funcsig[start]` is in bounds, the
`size_t` difference `end - start` does not wrap and equals `length(A)`, and the view
`[start, end)` lies inside the signature and is `A`. -/
theorem scan_positions_in_bounds (pre T A post : Str) (hT : '<' ∉ T) (hTc : ',' ∉ T)
    (hA : '<' ∉ A) (hpost : '<' ∉ post) (hgt : '>' ∉ post)
    (hlen : (pre ++ '<' :: (T ++ ',' :: (A ++ '>' :: post))).length < npos) :
    start_of (pre ++ '<' :: (T ++ ',' :: (A ++ '>' :: post)))
      < (pre ++ '<' :: (T ++ ',' :: (A ++ '>' :: post))).length ∧
    start_of (pre ++ '<' :: (T ++ ',' :: (A ++ '>' :: post)))
      ≤ end_of (pre ++ '<' :: (T ++ ',' :: (A ++ '>' :: post))) ∧
    end_of (pre ++ '<' :: (T ++ ',' :: (A ++ '>' :: post)))
      < (pre ++ '<' :: (T ++ ',' :: (A ++ '>' :: post))).length ∧
    (pre ++ '<' :: (T ++ ',' :: (A ++ '>' :: post)))[
        start_of (pre ++ '<' :: (T ++ ',' :: (A ++ '>' :: post)))]?
      = (A ++ ['>']).head? ∧
    (end_of (pre ++ '<' :: (T ++ ',' :: (A ++ '>' :: post))) + SIZE_MOD
        - start_of (pre ++ '<' :: (T ++ ',' :: (A ++ '>' :: post)))) % SIZE_MOD = A.length ∧
    end_of (pre ++ '<' :: (T ++ ',' :: (A ++ '>' :: post)))
        - start_of (pre ++ '<' :: (T ++ ',' :: (A ++ '>' :: post))) = A.length ∧
    substr_view (pre ++ '<' :: (T ++ ',' :: (A ++ '>' :: post)))
        (start_of (pre ++ '<' :: (T ++ ',' :: (A ++ '>' :: post)))) A.length = .ok A := by
  have hrest : '<' ∉ A ++ '>' :: post := by simp [hA, hpost]
  have hs := start_of_shape pre T (A ++ '>' :: post) hT hTc hrest hlen
  have he := end_of_shape pre T A post hgt hlen
  have hl : (pre ++ '<' :: (T ++ ',' :: (A ++ '>' :: post))).length
      = pre.length + T.length + A.length + post.length + 3 := by simp; omega
  rw [hs, he, hl]
  rw [hl, npos_eq] at hlen
  refine ⟨by omega, by omega, by omega, ?_, by rw [size_mod_eq]; omega, by omega, ?_⟩
  · rw [getElem?_start_shape]
    cases A <;> rfl
  · unfold substr_view
    rw [if_pos (by rw [hl]; omega), drop_start_shape, List.take_left]

/-- Witness of C16: the signature of `get_enum_member_name<e_example, (e_example)6>`. -/
theorem scan_positions_in_bounds_witness :
    '<' ∉ "enum e_example".toList ∧ ',' ∉ "enum e_example".toList ∧ '<' ∉ "BUZZ".toList ∧
    '<' ∉ "(void)".toList ∧ '>' ∉ "(void)".toList ∧
    (msvc.funcsig .detail_get_enum_member_name e_example 6).length < npos ∧
    start_of (msvc.funcsig .detail_get_enum_member_name e_example 6)
      < (msvc.funcsig .detail_get_enum_member_name e_example 6).length ∧
    start_of (msvc.funcsig .detail_get_enum_member_name e_example 6)
      ≤ end_of (msvc.funcsig .detail_get_enum_member_name e_example 6) ∧
    end_of (msvc.funcsig .detail_get_enum_member_name e_example 6)
        - start_of (msvc.funcsig .detail_get_enum_member_name e_example 6)
      = "BUZZ".toList.length :=
  have h := scan_positions_in_bounds (msvc.pre .detail_get_enum_member_name)
    "enum e_example".toList "BUZZ".toList "(void)".toList
    (by decide) (by decide) (by decide) (by decide) (by decide) (by decide)
  ⟨by decide, by decide, by decide, by decide, by decide, by decide,
    h.1, h.2.1, h.2.2.2.2.2.1⟩

/-! ## Splitting a range -/

/-- Expanding a concatenated pack is expanding both parts in sequence. -/
theorem expand_append {α : Type} (f : Nat → Except CompileError α) (L1 L2 : List Nat) :
    expand f (L1 ++ L2)
      = (expand f L1).bind (fun a => (expand f L2).map (fun b => a ++ b)) := by
  induction L1 with
  | nil =>
    rw [List.nil_append]
    cases expand f L2 <;> rfl
  | cons x xs ih =>
    have hstep : ∀ L, expand f (x :: L)
        = (match f x with
          | .error e => .error e
          | .ok y =>
            match expand f L with
            | .error e => .error e
            | .ok ys => .ok (y :: ys)) := fun L => by rw [expand]
    rw [List.cons_append, hstep, hstep, ih]
    cases f x with
    | error e => rfl
    | ok y =>
      cases expand f xs with
      | error e => rfl
      | ok ys => cases expand f L2 <;> rfl

/-- The offset sequence of `[Start, End)` is that of `[Start, Mid)` followed by that of
`[Mid, End)`. -/
theorem make_offset_split (Start Mid End : Nat) (h1 : Start ≤ Mid) (h2 : Mid ≤ End) :
    detail.make_offset_index_sequence Start (End - Start)
      = detail.make_offset_index_sequence Start (Mid - Start)
        ++ detail.make_offset_index_sequence Mid (End - Mid) := by
  have hsum : End - Start = (Mid - Start) + (End - Mid) := by omega
  unfold detail.make_offset_index_sequence detail.add_offset
  rw [hsum, List.range_add, List.map_append, List.map_map]
  congr 1
  apply List.map_congr_left
  intro j _
  simp only [Function.comp]
  congr 1
  omega

/-- The offset sequence from `0` is the plain index sequence. -/
theorem make_offset_zero (N : Nat) (hN : N < SIZE_MOD) :
    detail.make_offset_index_sequence 0 N = List.range N := by
  unfold detail.make_offset_index_sequence detail.add_offset
  conv_rhs => rw [← List.map_id (List.range N)]
  apply List.map_congr_left
  intro i hi
  have := List.mem_range.mp hi
  simp only [Nat.zero_add, id]
  exact Nat.mod_eq_of_lt (by omega)

/-- C14: for `Start <= Mid <= End` the table of `[Start, End)` is the table of
`[Start, Mid)` followed by the table of `[Mid, End)` (a failure of either part being the
failure of the whole), all three compile under the signature model, and
`get_enum_array_range<E, 0, N>()` equals `get_enum_array<E, N>()`. -/
theorem get_enum_array_range_split (C : Compiler) (E : EnumDecl) (Start Mid End N : Nat)
    (h1 : Start ≤ Mid) (h2 : Mid ≤ End) (hN : N < SIZE_MOD) :
    get_enum_array_range C E Start End
      = (get_enum_array_range C E Start Mid).bind
          (fun a => (get_enum_array_range C E Mid End).map (fun b => a ++ b)) ∧
    ((End < SIZE_MOD ∧ ∀ i < End - Start,
        SigModel C .detail_get_enum_member_name E (Int.ofNat (Start + i))) →
      ∃ a b, get_enum_array_range C E Start Mid = .ok a ∧
        get_enum_array_range C E Mid End = .ok b ∧
        get_enum_array_range C E Start End = .ok (a ++ b)) ∧
    get_enum_array_range C E 0 N = get_enum_array_N C E N := by
  have hsplit : get_enum_array_range C E Start End
      = (get_enum_array_range C E Start Mid).bind
          (fun a => (get_enum_array_range C E Mid End).map (fun b => a ++ b)) := by
    unfold get_enum_array_range get_enum_array
    rw [if_pos (Nat.le_trans h1 h2), if_pos h1, if_pos h2, make_offset_split Start Mid End h1 h2,
      expand_append]
  refine ⟨hsplit, ?_, ?_⟩
  · rintro ⟨hEnd, hmodel⟩
    have hmod : ∀ i < End - Start, (Start + i) % SIZE_MOD = Start + i := fun i hi =>
      Nat.mod_eq_of_lt (by omega)
    obtain ⟨arr, harr, _, _⟩ := get_enum_array_model C E
      (detail.make_offset_index_sequence Start (End - Start))
      (fun x hx => by
        obtain ⟨i, hi, rfl⟩ := make_offset_mem _ _ _ hx
        rw [hmod i hi]
        exact hmodel i hi)
    have hwhole : get_enum_array_range C E Start End = .ok arr := by
      unfold get_enum_array_range
      rw [if_pos (Nat.le_trans h1 h2), harr]
    rw [hwhole] at hsplit
    cases ha : get_enum_array_range C E Start Mid with
    | error e => rw [ha] at hsplit; exact Except.noConfusion hsplit
    | ok a =>
      cases hb : get_enum_array_range C E Mid End with
      | error e => rw [ha, hb] at hsplit; exact Except.noConfusion hsplit
      | ok b =>
        rw [ha, hb] at hsplit
        exact ⟨a, b, rfl, rfl, by rw [hwhole]; exact hsplit⟩
  · unfold get_enum_array_range get_enum_array_N
    rw [if_pos (Nat.zero_le _), Nat.sub_zero, make_offset_zero N hN]

/-- Witness of C14: the table of `e_example` cut at 4. -/
theorem get_enum_array_range_split_witness :
    (7 : Nat) < SIZE_MOD ∧
    (∀ i < 7 - 0, SigModel msvc .detail_get_enum_member_name e_example (Int.ofNat (0 + i))) ∧
    get_enum_array_range msvc e_example 0 4 = .ok ["FOO".toList, "BAR".toList, [], []] ∧
    get_enum_array_range msvc e_example 4 7
      = .ok ["FOOBAR".toList, "FIZZ".toList, "BUZZ".toList] ∧
    (∃ a b, get_enum_array_range msvc e_example 0 4 = .ok a ∧
      get_enum_array_range msvc e_example 4 7 = .ok b ∧
      get_enum_array_range msvc e_example 0 7 = .ok (a ++ b)) ∧
    get_enum_array_range msvc e_example 0 7 = get_enum_array_N msvc e_example 7 :=
  have h := get_enum_array_range_split msvc e_example 0 4 7 7
    (by decide) (by decide) (by decide)
  ⟨by decide, by decide, by decide, by decide, h.2.1 ⟨by decide, by decide⟩, h.2.2⟩

/-! ## Signatures outside the model -/

/-- The assertion on `start` of `is_enum_member_valid` never fires on a view shorter than
`npos`. -/
theorem detail_valid_static_assert_never (s : Str) (h : s.length < npos) :
    detail.is_enum_member_valid s ≠ .error .static_assert := by
  unfold detail.is_enum_member_valid
  simp only [if_neg (start_of_ne_npos s h)]
  cases s[start_of s]? <;> simp

/-- C11: a signature without comma after its last `<`, and a signature without any `<`, are
not rejected: `start` wraps to `0`, the assertion on `start` holds, and both functions return
a result read from the first character on. -/
theorem unsupported_signature_shapes_accepted :
    find "bool f<x>(void)".toList ',' (rfind "bool f<x>(void)".toList '<') = npos ∧
    detail.is_enum_member_valid "bool f<x>(void)".toList = .ok true ∧
    detail.get_enum_member_name "bool f<x>(void)".toList = .ok "bool f<x".toList ∧
    '<' ∉ "auto f(void) -> bool".toList ∧
    detail.is_enum_member_valid "auto f(void) -> bool".toList = .ok true ∧
    detail.get_enum_member_name "auto f(void) -> bool".toList
      = .ok "auto f(void) -".toList := by
  refine ⟨by decide, by decide, by decide, by decide, by decide, by decide⟩

/-- C13, as stated, fails: on the two sample signatures of the header comment, which have a
space after the comma, the character read at `start` is that space, so the cast sample is
not reported as a non-member and neither name comes back as the claim says. -/
theorem documented_samples_read_the_space :
    detail.is_enum_member_valid
      "bool isEnumMemberValid<enumType, (enumType)42>()".toList = .ok true ∧
    detail.get_enum_member_name
      "bool isEnumMemberValid<enumType, (enumType)42>()".toList
      = .ok " (enumType)42".toList ∧
    detail.get_enum_member_name
      "bool isEnumMemberValid<enumType, enumMemberName>()".toList
      = .ok " enumMemberName".toList ∧
    ¬ (detail.is_enum_member_valid
        "bool isEnumMemberValid<enumType, (enumType)42>()".toList = .ok false ∧
      detail.get_enum_member_name
        "bool isEnumMemberValid<enumType, (enumType)42>()".toList = .ok [] ∧
      detail.get_enum_member_name
        "bool isEnumMemberValid<enumType, enumMemberName>()".toList
        = .ok "enumMemberName".toList) := by
  refine ⟨by decide, by decide, by decide, ?_⟩
  decide

/-- C13, amended: on every signature `pre ++ "<" ++ T ++ "," ++ A ++ ">" ++ post` in which
the second template argument `A` directly follows the comma, in both headers: when `A` opens
with a parenthesis `is_enum_member_valid` returns false and `get_enum_member_name` the empty
string; when `A` opens with another character, in particular when `A` is a bare identifier,
`is_enum_member_valid` returns true and `get_enum_member_name` returns exactly `A`. -/
theorem paren_after_comma_means_non_member (pre T A post : Str) (hT : '<' ∉ T)
    (hTc : ',' ∉ T) (hA : '<' ∉ A) (hpost : '<' ∉ post) (hgt : '>' ∉ post)
    (hlen : (pre ++ '<' :: (T ++ ',' :: (A ++ '>' :: post))).length < npos) :
    (A.head? = some '(' →
      detail.is_enum_member_valid (pre ++ '<' :: (T ++ ',' :: (A ++ '>' :: post)))
        = .ok false ∧
      detail.get_enum_member_name (pre ++ '<' :: (T ++ ',' :: (A ++ '>' :: post)))
        = .ok [] ∧
      enum_hpp.is_enum_member_valid (pre ++ '<' :: (T ++ ',' :: (A ++ '>' :: post)))
        = .ok false ∧
      enum_hpp.get_enum_member_name (pre ++ '<' :: (T ++ ',' :: (A ++ '>' :: post)))
        = .ok []) ∧
    ((is_identifier A = true ∨ ∃ c, A.head? = some c ∧ c ≠ '(') →
      detail.is_enum_member_valid (pre ++ '<' :: (T ++ ',' :: (A ++ '>' :: post)))
        = .ok true ∧
      detail.get_enum_member_name (pre ++ '<' :: (T ++ ',' :: (A ++ '>' :: post)))
        = .ok A ∧
      enum_hpp.is_enum_member_valid (pre ++ '<' :: (T ++ ',' :: (A ++ '>' :: post)))
        = .ok true ∧
      enum_hpp.get_enum_member_name (pre ++ '<' :: (T ++ ',' :: (A ++ '>' :: post)))
        = .ok A) := by
  have hname := detail_name_shape pre T A post hT hTc hA hpost hgt hlen
  constructor
  · intro hhead
    cases A with
    | nil => simp at hhead
    | cons a r =>
      simp only [List.head?_cons, Option.some.injEq] at hhead
      subst hhead
      have hv := detail_valid_shape pre T (r ++ '>' :: post) '(' hT hTc
        (by simpa [hpost] using hA) (by simpa using hlen)
      have hn : detail.get_enum_member_name
          (pre ++ '<' :: (T ++ ',' :: ('(' :: r ++ '>' :: post))) = .ok [] := by
        rw [hname]; simp
      exact ⟨by simpa using hv, hn, by simpa using hv, hn⟩
  · intro hid
    have hc : ∃ c, A.head? = some c ∧ c ≠ '(' := by
      rcases hid with hid | hid
      · obtain ⟨c, cs, rfl, hne⟩ := identifier_cons A hid
        exact ⟨c, rfl, hne⟩
      · exact hid
    obtain ⟨c, hhead, hne⟩ := hc
    cases A with
    | nil => simp at hhead
    | cons a r =>
      simp only [List.head?_cons, Option.some.injEq] at hhead
      subst hhead
      have hv := detail_valid_shape pre T (r ++ '>' :: post) a hT hTc
        (by simpa [hpost] using hA) (by simpa using hlen)
      have hn : detail.get_enum_member_name
          (pre ++ '<' :: (T ++ ',' :: (a :: r ++ '>' :: post))) = .ok (a :: r) := by
        rw [hname]; simp [hne]
      have hb : (a != '(') = true := by simpa using hne
      have hv' : detail.is_enum_member_valid
          (pre ++ '<' :: (T ++ ',' :: (a :: r ++ '>' :: post))) = .ok true := by
        rw [hb] at hv
        simpa using hv
      exact ⟨hv', hn, hv', hn⟩

/-- Witness of C13 amended: the samples of the header comment written without the space. -/
theorem paren_after_comma_means_non_member_witness :
    '<' ∉ "enumType".toList ∧ ',' ∉ "enumType".toList ∧ '<' ∉ "(enumType)42".toList ∧
    '<' ∉ "enumMemberName".toList ∧ '<' ∉ "()".toList ∧ '>' ∉ "()".toList ∧
    "(enumType)42".toList.head? = some '(' ∧ is_identifier "enumMemberName".toList = true ∧
    detail.is_enum_member_valid
      "bool isEnumMemberValid<enumType,(enumType)42>()".toList = .ok false ∧
    detail.get_enum_member_name
      "bool isEnumMemberValid<enumType,(enumType)42>()".toList = .ok [] ∧
    detail.is_enum_member_valid
      "bool isEnumMemberValid<enumType,enumMemberName>()".toList = .ok true ∧
    detail.get_enum_member_name
      "bool isEnumMemberValid<enumType,enumMemberName>()".toList
      = .ok "enumMemberName".toList :=
  have hcast := (paren_after_comma_means_non_member "bool isEnumMemberValid".toList
    "enumType".toList "(enumType)42".toList "()".toList
    (by decide) (by decide) (by decide) (by decide) (by decide) (by decide)).1 (by decide)
  have hmem := (paren_after_comma_means_non_member "bool isEnumMemberValid".toList
    "enumType".toList "enumMemberName".toList "()".toList
    (by decide) (by decide) (by decide) (by decide) (by decide) (by decide)).2
    (Or.inl (by decide))
  ⟨by decide, by decide, by decide, by decide, by decide, by decide, by decide, by decide,
    hcast.1, hcast.2.1, hmem.1, hmem.2.1⟩

/-! ## The two headers -/

theorem enum_hpp_is_enum_member_valid_eq (s : Str) :
    enum_hpp.is_enum_member_valid s = detail.is_enum_member_valid s := rfl

theorem enum_hpp_get_enum_member_name_eq (s : Str) :
    enum_hpp.get_enum_member_name s = detail.get_enum_member_name s := rfl

theorem enum_hpp_make_offset_index_sequence_eq (Offset N : Nat) :
    enum_hpp.make_offset_index_sequence Offset N
      = detail.make_offset_index_sequence Offset N := rfl

/-- Under the signature model the name does not depend on which template is instantiated. -/
theorem name_template_irrelevant (C : Compiler) (f g : Template) (E : EnumDecl) (v : Int)
    (hf : SigModel C f E v) (hg : SigModel C g E v) :
    detail.get_enum_member_name (C.funcsig f E v)
      = detail.get_enum_member_name (C.funcsig g E v) := by
  have hA := template_arg_no_lt C f E v hf
  obtain ⟨hT, hTc, _, _, hpost, hlenf⟩ := hf
  obtain ⟨_, _, _, _, _, hleng⟩ := hg
  have hrest : '<' ∉ C.template_arg E v ++ '>' :: C.post := by simp [hA, hpost]
  have hgt : '>' ∈ C.template_arg E v ++ '>' :: C.post := by simp
  unfold Compiler.funcsig at *
  obtain ⟨r1, r2, c, tl, _, _, hct, _, hnf, hch⟩ :=
    scan_tail_decomposed (C.pre f) E.type_name _ hT hTc hrest hgt hlenf
  obtain ⟨r1', r2', c', tl', _, _, hct', _, hng, hch'⟩ :=
    scan_tail_decomposed (C.pre g) E.type_name _ hT hTc hrest hgt hleng
  have hcc : c = c' := by
    rw [hct] at hct'
    exact (List.cons.inj hct').1
  have hrr : r1 = r1' := hch.symm.trans hch'
  subst hcc hrr
  exact hnf.trans hng.symm

theorem expand_congr {α : Type} (f g : Nat → Except CompileError α) (L : List Nat)
    (h : ∀ x ∈ L, f x = g x) : expand f L = expand g L := by
  induction L with
  | nil => rfl
  | cons x xs ih =>
    rw [expand, expand, h x (List.mem_cons_self _ _),
      ih (fun y hy => h y (List.mem_cons_of_mem _ hy))]

/-- With `N` equal to the length of the list, and under the signature model for the
instantiations of both headers, the explicit-list overloads of the two headers agree. -/
theorem enum_hpp_get_enum_array_eq (C : Compiler) (E : EnumDecl) (L : List Nat)
    (hd : ∀ x ∈ L, SigModel C .detail_get_enum_member_name E (Int.ofNat x))
    (hf : ∀ x ∈ L, SigModel C .flat_get_enum_member_name E (Int.ofNat x)) :
    enum_hpp.get_enum_array C E L.length L = get_enum_array C E L := by
  obtain ⟨arr, harr, hlen, _⟩ := get_enum_array_model C E L hd
  have hexp : expand (fun i => enum_hpp.get_enum_member_name
      (C.funcsig .flat_get_enum_member_name E (Int.ofNat i))) L = .ok arr := by
    rw [← harr]
    unfold get_enum_array
    apply expand_congr
    intro x hx
    exact name_template_irrelevant C _ _ E _ (hf x hx) (hd x hx)
  unfold enum_hpp.get_enum_array
  rw [hexp, harr]
  simp [hlen]

/-- C12: on the explicit index list `6, 7, 8` the overload of `const_enum.hpp` returns three
slots, while the overload of `enum.hpp` returns five slots for `N = 5` and does not compile
for `N = 2`; the two headers are not interchangeable there. -/
theorem headers_differ_on_explicit_list :
    get_enum_array msvc e_example_flat [6, 7, 8]
      = .ok ["FOOBAR".toList, "FIZZ".toList, "BUZZ".toList] ∧
    enum_hpp.get_enum_array msvc e_example_flat 5 [6, 7, 8]
      = .ok ["FOOBAR".toList, "FIZZ".toList, "BUZZ".toList, [], []] ∧
    enum_hpp.get_enum_array msvc e_example_flat 2 [6, 7, 8] = .error .excess_initializers ∧
    ¬ ∀ (N : Nat) (L : List Nat),
      enum_hpp.get_enum_array msvc e_example_flat N L = get_enum_array msvc e_example_flat L := by
  refine ⟨by decide, by decide, by decide, ?_⟩
  intro hall
  have := hall 5 [6, 7, 8]
  revert this
  decide

end ConstEnum
